import Mathlib

/-!
Verification of the retro-tv schedule/playback core against its design
specification.

Shallow embedding of:
* `src/bin/schedule_manager.py` — config/override stores, schedule merger,
  block resolver, mutation API (`set_block`, `remove_block`, `reset_schedule`,
  `load_state`);
* `src/tv-web-control.py` — `calculate_epoch_position` (epoch player and the
  schedule-aware "now playing" facade).

Modelling conventions:
* Python JSON dicts become association lists (`List (String × _)`) with the
  insertion-order update semantics of Python dicts (`setA`);
* Python string comparison (`<=`, `<`, `startswith`) is lexicographic on
  Unicode code points; it is embedded as `charsLt`/`strLt`/`strLe`/
  `startsWithPy` over `String.data` so that every comparison is kernel
  computable (the built-in `String` order does not reduce);
* `list.sort(key=...)` is a stable sort; any two stable sorts under the same
  key agree, so it is embedded as `List.insertionSort` (structural, stable);
* Python ints are `Int`; `%` is `Int.emod`, which agrees with Python `%` for
  the positive moduli the code guards for;
* JSON-dict field access with defaults (`b.get("start", ...)`) is modelled by
  total structure fields, matching the shapes the mutation API always writes.
-/

/-- Lexicographic strict order on code-point lists: the order Python uses to
compare strings such as "23:59" < "24:00". -/
def charsLt : List Char → List Char → Bool
  | [], [] => false
  | [], _ :: _ => true
  | _ :: _, [] => false
  | a :: as, b :: bs =>
    if a.toNat < b.toNat then true
    else if b.toNat < a.toNat then false
    else charsLt as bs

/-- Python `a < b` on strings. -/
def strLt (a b : String) : Bool := charsLt a.data b.data

/-- Python `a <= b` on strings (total order, so `a <= b` iff `not (b < a)`). -/
def strLe (a b : String) : Bool := ! strLt b a

/-- Code-point list p is a prefix of the second list. -/
def charsIsPref : List Char → List Char → Bool
  | [], _ => true
  | _ :: _, [] => false
  | a :: as, b :: bs => (a.toNat == b.toNat) && charsIsPref as bs

/-- Python `s.startswith(p)`. -/
def startsWithPy (s p : String) : Bool := charsIsPref p.data s.data

/-- Schedule block, `{"start": .., "end": .., "show_id": ..}` as written by
`set_block` in `schedule_manager.py`. -/
structure Block where
  start : String
  «end» : String
  show_id : String
deriving DecidableEq, Repr

/-- Per-day schedule: station name → list of blocks. -/
abbrev DaySchedule := List (String × List Block)

/-- Weekly schedule: day name → `DaySchedule`. -/
abbrev WeekSchedule := List (String × DaySchedule)

/-- Entry of the show catalog in `schedule_config.json` (field `show` of the
resolver result; named `showInfo` here because `show` is a Lean keyword). -/
structure ShowInfo where
  id : String
  title : String
  path : String
deriving DecidableEq, Repr

/-- Content of `schedule_config.json` (the parts the core reads). -/
structure Config where
  default_schedule : WeekSchedule
  shows : List ShowInfo
deriving DecidableEq, Repr

/-- Content of `schedule_state.json`.  `get_schedule` reads the override layer
from the `schedule` key; the `overrides` key is initialized by `load_state`
and otherwise untouched. -/
structure ScheduleState where
  schedule : WeekSchedule
  overrides : WeekSchedule
deriving DecidableEq, Repr

/-- Constant `DAYS` from `schedule_manager.py`. -/
def DAYS : List String :=
  ["monday", "tuesday", "wednesday", "thursday", "friday", "saturday", "sunday"]

/-- Python dict assignment `d[k] = v` on an insertion-ordered association
list: replaces the value at an existing key in place, else appends. -/
def setA {α : Type} : List (String × α) → String → α → List (String × α)
  | [], k, v => [(k, v)]
  | (k', v') :: rest, k, v =>
    if k' == k then (k', v) :: rest else (k', v') :: setA rest k v

/-- Condition of the on-disk state file, as `load_state` observes it. -/
inductive StateFile where
  | missing
  | unparseable
  | parsed (s : ScheduleState)

/-- Function `load_state` (`schedule_manager.py` lines 43-47): a missing file yields
the empty state; an existing file is passed to `json.load`, which raises
`JSONDecodeError` (modelled as `Except.error`) when the file is unparseable —
there is no `try`/`except` around it. -/
def load_state : StateFile → Except String ScheduleState
  | .missing => .ok ⟨[], []⟩
  | .unparseable => .error "JSONDecodeError"
  | .parsed s => .ok s

/-- Function `get_shows`: dict of show id → show info. -/
def get_shows (config : Config) : List (String × ShowInfo) :=
  config.shows.map fun s => (s.id, s)

/-- Function `get_schedule` (lines 93-100): per day in `DAYS`, the override bucket if
the day is present in the state (`overrides.get(day, ...)`), else the config
default bucket for the day. -/
def get_schedule (config : Config) (state : ScheduleState) : WeekSchedule :=
  DAYS.map fun day =>
    (day, (state.schedule.lookup day).getD
      ((config.default_schedule.lookup day).getD []))

/-- The effective `DaySchedule` for one day (`schedule.get(day, {})` on the
merged schedule). -/
def effective (config : Config) (state : ScheduleState) (day : String) :
    DaySchedule :=
  ((get_schedule config state).lookup day).getD []

/-- Function `channel_to_station`: station name of a channel number per `channels.tsv`
(`ch_info.get("station", "")`). -/
def channel_to_station (channels : List (String × String))
    (channel_number : String) : String :=
  (channels.lookup channel_number).getD ""

/-- Computation of `end_eff` in `resolve_now`: an empty or `"00:00"` end means
end of day, `"24:00"`. -/
def end_effective (e : String) : String :=
  if e = "" ∨ e = "00:00" then "24:00" else e

/-- The covering test of `resolve_now`: `start <= current_time < end_eff`
under Python string comparison. -/
def block_covers (b : Block) (t : String) : Bool :=
  strLe b.start t && strLt t (end_effective b.«end»)

/-- The `for block in blocks` loop of `resolve_now` (lines 126-135): keep the
covering block with the latest start (`start > best.get("start")`). -/
def best_block (t : String) : List Block → Option Block → Option Block
  | [], best => best
  | b :: rest, best =>
    if block_covers b t then
      match best with
      | none => best_block t rest (some b)
      | some bb =>
        if strLt bb.start b.start then best_block t rest (some b)
        else best_block t rest (some bb)
    else best_block t rest best

/-- The block list `resolve_now` scans: the station's bucket in the effective
day schedule, `[]` when the station key is empty. -/
def effective_blocks (config : Config) (state : ScheduleState)
    (day station_key : String) : List Block :=
  let day_schedule := effective config state day
  if station_key = "" then [] else (day_schedule.lookup station_key).getD []

/-- Station-level core of `resolve_now` (lines 103-143): `None` when the
block list is empty or no block covers `t`, else the best covering block. -/
def resolve_blocks (config : Config) (state : ScheduleState)
    (day station_key t : String) : Option Block :=
  let blocks := effective_blocks config state day station_key
  if blocks = [] then none else best_block t blocks none

/-- Result dict of `resolve_now`: `{"show_id": .., "show": .., "block": ..}`
(`show` is `shows.get(show_id, {})`, hence optional). -/
structure ResolveResult where
  show_id : String
  showInfo : Option ShowInfo
  block : Block
deriving DecidableEq, Repr

/-- Function `resolve_now` (lines 103-143), with the ambient inputs (clock → `day`,
`t`; `channels.tsv` → `channels`) passed explicitly. -/
def resolve_now (config : Config) (state : ScheduleState)
    (channels : List (String × String)) (day t : String)
    (channel_number : String) : Option ResolveResult :=
  let station_key := channel_to_station channels channel_number
  match resolve_blocks config state day station_key t with
  | some best => some ⟨best.show_id, (get_shows config).lookup best.show_id, best⟩
  | none => none

/-- Function `set_block` (lines 175-194): seed the day from the defaults when absent,
ensure the station bucket, drop any block at the same start, append the new
block and re-sort by start (Python's stable sort, embedded as insertion
sort). -/
def set_block (config : Config) (state : ScheduleState)
    (day station start end_ show_id : String) : ScheduleState :=
  let sched0 := state.schedule
  let sched1 :=
    if (sched0.lookup day).isSome then sched0
    else setA sched0 day ((config.default_schedule.lookup day).getD [])
  let ds0 := (sched1.lookup day).getD []
  let ds1 := if (ds0.lookup station).isSome then ds0 else setA ds0 station []
  let blocks0 := (ds1.lookup station).getD []
  let blocks1 := blocks0.filter fun b => b.start != start
  let blocks2 := blocks1 ++ [⟨start, end_, show_id⟩]
  let blocks3 := blocks2.insertionSort fun a b => strLe a.start b.start = true
  { state with schedule := setA sched1 day (setA ds1 station blocks3) }

/-- Function `remove_block` (lines 197-206): when the day and station buckets exist,
filter out blocks with the given start and persist; otherwise do nothing. -/
def remove_block (state : ScheduleState) (day station start : String) :
    ScheduleState :=
  match state.schedule.lookup day with
  | none => state
  | some ds =>
    match ds.lookup station with
    | none => state
    | some blocks =>
      { state with
        schedule :=
          setA state.schedule day
            (setA ds station (blocks.filter fun b => b.start != start)) }

/-- Function `reset_schedule` (lines 209-214): clear the override layer. -/
def reset_schedule (state : ScheduleState) : ScheduleState :=
  { state with schedule := [] }

/-- The station bucket stored for `(day, station)` in the override layer. -/
def bucketOf (state : ScheduleState) (day station : String) : List Block :=
  (((state.schedule.lookup day).getD []).lookup station).getD []

/-- Playlist entry from a station's `index.tsv`: path and duration in
seconds (`int(parts[1])`). -/
structure Entry where
  path : String
  duration : Int
deriving DecidableEq, Repr

/-- Sum of the durations of a playlist (`sum(e['duration'] for e in ...)`). -/
def total_duration (entries : List Entry) : Int :=
  (entries.map (·.duration)).sum

/-- The accumulation loop shared by both epoch walks in
`calculate_epoch_position` (lines 1066-1076 and 1088-1098): first entry with
`pos < acc + duration`, offset `pos - acc`. -/
def epoch_walk : List Entry → Int → Int → Option (Entry × Int)
  | [], _, _ => none
  | e :: rest, acc, pos =>
    if pos < acc + e.duration then some (e, pos - acc)
    else epoch_walk rest (acc + e.duration) pos

/-- The epoch player (`calculate_epoch_position` fallback path, lines
1039-1040 and 1080-1100): `None` on an empty or zero-total playlist, else the
walk at `instant mod total`.  The selected entry and offset are returned; the
result dict (`basename`, `position`, `duration`, `percent`) is a projection
of them. -/
def playAt (entries : List Entry) (instant : Int) : Option (Entry × Int) :=
  if entries = [] then none
  else
    let total := total_duration entries
    if total = 0 then none
    else epoch_walk entries 0 (instant % total)

/-- Outcome of `calculate_epoch_position`: either a terminal descriptor
(`position` and `duration` zero, e.g. SIGNOFF/SIGNON) or a playlist entry
with an offset. -/
inductive EpochResult where
  | terminal (label : String)
  | playing (e : Entry) (offset : Int)
deriving DecidableEq, Repr

/-- Function `calculate_epoch_position` (`tv-web-control.py` lines 988-1102) for
scheduled stations (station name not starting with `MTV` and not a YouTube
live channel; those branches return terminal descriptors from out-of-band
files before the playlist is read).  Ambient inputs — config, state,
`channels.tsv`, the station's `index.tsv` entries, the wall clock (`day`,
`t`, `instant`) — are passed explicitly.  The schedule-aware lookup sits in a
`try`/`except` that falls through to the full-station epoch on any failure
path that returns nothing. -/
def calculate_epoch_position (config : Config) (state : ScheduleState)
    (channels : List (String × String)) (entries : List Entry)
    (day t : String) (channel_number : Option String) (instant : Int) :
    Option EpochResult :=
  if entries = [] then none
  else
    let viaSchedule : Option EpochResult :=
      match channel_number with
      | none => none
      | some ch =>
        match resolve_now config state channels day t ch with
        | none => none
        | some result =>
          if result.show_id = "SIGNOFF" ∨ result.show_id = "SIGNON" then
            some (.terminal ((result.showInfo.map (·.title)).getD result.show_id))
          else
            let show_path := (result.showInfo.map (·.path)).getD ""
            if show_path = "" then none
            else
              let show_entries := entries.filter fun e => startsWithPy e.path show_path
              if show_entries = [] then none
              else
                let total := total_duration show_entries
                if 0 < total then
                  (epoch_walk show_entries 0 (instant % total)).map
                    fun p => .playing p.1 p.2
                else none
    match viaSchedule with
    | some r => some r
    | none =>
      let total := total_duration entries
      if total = 0 then none
      else (epoch_walk entries 0 (instant % total)).map fun p => .playing p.1 p.2

/-- Total duration of the first `k` playlist entries (used to state the
"first matching entry" property of the epoch walk). -/
def prefixSum (entries : List Entry) (k : Nat) : Int :=
  total_duration (entries.take k)

/-- Base bucket that `set_block` mutates for `(day, station)`: the existing
override bucket when the day exists in the state, else the station's bucket
in the config defaults for that day (the seeding step of `set_block`). -/
def seedBucket (config : Config) (state : ScheduleState)
    (day station : String) : List Block :=
  if (state.schedule.lookup day).isSome then bucketOf state day station
  else (((config.default_schedule.lookup day).getD []).lookup station).getD []

/-- Comparison passed to the sort in `set_block` (`key=lambda b: b.get("start")`). -/
def blockLe (a b : Block) : Prop := strLe a.start b.start = true

instance : DecidableRel blockLe := fun a b => by
  unfold blockLe
  infer_instance

/-- Sample block for concrete instantiations. -/
def demoBlock : Block := ⟨"09:00", "12:00", "news"⟩

/-- Sample config: one show, one default block on monday for station NEWS. -/
def demoConfig : Config :=
  ⟨[("monday", [("NEWS", [demoBlock])])],
   [⟨"news", "Evening News", "/shows/news/"⟩]⟩

/-- Sample empty override state. -/
def demoState : ScheduleState := ⟨[], []⟩

/-- Sample config for the facade scenarios: a block covering the whole day
selects show X with content path "/shows/X/". -/
def facadeConfig : Config :=
  ⟨[("monday", [("ST", [⟨"00:00", "", "X"⟩])])],
   [⟨"X", "Show X", "/shows/X/"⟩]⟩

/-- Sample channel directory mapping channel 3 to station ST. -/
def facadeChannels : List (String × String) := [("3", "ST")]

/-- Playlist whose X-subset is non-empty but has zero total duration. -/
def facadeEntriesZero : List Entry :=
  [⟨"/shows/X/a", 0⟩, ⟨"/shows/Y/b", 300⟩]

/-- Playlist with X- and Y-subsets of positive duration. -/
def facadeEntries : List Entry :=
  [⟨"/shows/X/a", 600⟩, ⟨"/shows/Y/b", 300⟩]

/-- Scenario A playlist: entries A (600 s) and B (300 s). -/
def scenarioAPlaylist : List Entry := [⟨"A", 600⟩, ⟨"B", 300⟩]

/-- Override state whose monday bucket is present but empty. -/
def c4State : ScheduleState := ⟨[("monday", [])], []⟩

/-- Config with no defaults and no shows. -/
def emptyConfig : Config := ⟨[], []⟩

/-- Scenario C, first edit. -/
def scenC1 : ScheduleState :=
  set_block emptyConfig demoState "monday" "WEATHER" "08:00" "09:00" "MORNING"

/-- Scenario C, second edit at the same start. -/
def scenC2 : ScheduleState :=
  set_block emptyConfig scenC1 "monday" "WEATHER" "08:00" "10:00" "MORNING2"

theorem charsLt_irrefl (l : List Char) : charsLt l l = false := by
  induction l with
  | nil => rfl
  | cons a as ih => simp [charsLt, ih]

theorem charsLt_trans (as : List Char) :
    ∀ bs cs, charsLt as bs = true → charsLt bs cs = true →
      charsLt as cs = true := by
  induction as with
  | nil =>
    intro bs cs h1 h2
    cases bs with
    | nil => simp [charsLt] at h1
    | cons b bs =>
      cases cs with
      | nil => simp [charsLt] at h2
      | cons c cs => rfl
  | cons a as ih =>
    intro bs cs h1 h2
    cases bs with
    | nil => simp [charsLt] at h1
    | cons b bs =>
      cases cs with
      | nil => simp [charsLt] at h2
      | cons c cs =>
        simp only [charsLt] at h1 h2 ⊢
        split_ifs at h1 h2 ⊢ <;>
          first
            | rfl
            | omega
            | (exact ih _ _ h1 h2)

theorem charsLt_notlt_trans (as : List Char) :
    ∀ bs cs, charsLt as bs = false → charsLt bs cs = false →
      charsLt as cs = false := by
  induction as with
  | nil =>
    intro bs cs h1 h2
    cases bs with
    | nil =>
      cases cs with
      | nil => rfl
      | cons c cs => simp [charsLt] at h2
    | cons b bs => simp [charsLt] at h1
  | cons a as ih =>
    intro bs cs h1 h2
    cases bs with
    | nil =>
      cases cs with
      | nil => rfl
      | cons c cs => simp [charsLt] at h2
    | cons b bs =>
      cases cs with
      | nil => rfl
      | cons c cs =>
        simp only [charsLt] at h1 h2 ⊢
        split_ifs at h1 h2 ⊢ <;>
          first
            | rfl
            | omega
            | (exact ih _ _ h1 h2)

theorem strLt_irrefl (a : String) : strLt a a = false := charsLt_irrefl _

theorem strLt_trans {a b c : String} (h1 : strLt a b = true)
    (h2 : strLt b c = true) : strLt a c = true :=
  charsLt_trans _ _ _ h1 h2

theorem strLt_notlt_trans {a b c : String} (h1 : strLt a b = false)
    (h2 : strLt b c = false) : strLt a c = false :=
  charsLt_notlt_trans _ _ _ h1 h2

theorem strLe_refl (a : String) : strLe a a = true := by
  simp [strLe, strLt_irrefl]

theorem strLe_eq_true_iff {a b : String} : strLe a b = true ↔ strLt b a = false := by
  simp [strLe]

theorem best_block_some_ne_none (t : String) :
    ∀ (l : List Block) (x : Block), best_block t l (some x) ≠ none := by
  intro l
  induction l with
  | nil => intro x h; exact Option.noConfusion h
  | cons b rest ih =>
    intro x h
    simp only [best_block] at h
    split at h
    · split at h
      · exact ih _ h
      · exact ih _ h
    · exact ih _ h

theorem best_block_eq_none (t : String) :
    ∀ (l : List Block) (best : Option Block), best_block t l best = none →
      best = none ∧ ∀ b ∈ l, block_covers b t = false := by
  intro l
  induction l with
  | nil =>
    intro best h
    exact ⟨h, by simp⟩
  | cons b rest ih =>
    intro best h
    cases best with
    | none =>
      simp only [best_block] at h
      by_cases hc : block_covers b t = true
      · rw [if_pos hc] at h
        exact absurd h (best_block_some_ne_none t rest b)
      · rw [if_neg hc] at h
        obtain ⟨h1, h2⟩ := ih none h
        refine ⟨rfl, ?_⟩
        intro b' hb'
        rcases List.mem_cons.mp hb' with rfl | hmem
        · exact Bool.eq_false_iff.mpr hc
        · exact h2 b' hmem
    | some bb =>
      simp only [best_block] at h
      by_cases hc : block_covers b t = true
      · rw [if_pos hc] at h
        by_cases hlt : strLt bb.start b.start = true
        · rw [if_pos hlt] at h
          exact absurd h (best_block_some_ne_none t rest b)
        · rw [if_neg hlt] at h
          exact absurd h (best_block_some_ne_none t rest bb)
      · rw [if_neg hc] at h
        obtain ⟨h1, _⟩ := ih (some bb) h
        exact Option.noConfusion h1

theorem best_block_spec (t : String) :
    ∀ (l : List Block) (best : Option Block) (r : Block),
      (∀ x, best = some x → block_covers x t = true) →
      best_block t l best = some r →
      block_covers r t = true ∧ (r ∈ l ∨ best = some r) ∧
      (∀ b ∈ l, block_covers b t = true → strLe b.start r.start = true) ∧
      (∀ x, best = some x → strLe x.start r.start = true) := by
  intro l
  induction l with
  | nil =>
    intro best r hbest h
    simp only [best_block] at h
    refine ⟨hbest r h, Or.inr h, by simp, ?_⟩
    intro x hx
    rw [hx] at h
    injection h with h
    subst h
    exact strLe_refl _
  | cons b rest ih =>
    intro best r hbest h
    cases best with
    | none =>
      simp only [best_block] at h
      by_cases hc : block_covers b t = true
      · rw [if_pos hc] at h
        have hb' : ∀ x, some b = some x → block_covers x t = true := by
          intro x hx
          injection hx with hx
          exact hx ▸ hc
        obtain ⟨hcov, hmem, hmax, hx⟩ := ih (some b) r hb' h
        refine ⟨hcov, ?_, ?_, ?_⟩
        · rcases hmem with hm | hm
          · exact Or.inl (List.mem_cons_of_mem _ hm)
          · injection hm with hm
            exact Or.inl (hm ▸ List.mem_cons_self b rest)
        · intro b' hb'' hcov'
          rcases List.mem_cons.mp hb'' with rfl | hmem'
          · exact hx _ rfl
          · exact hmax b' hmem' hcov'
        · intro x hx'
          exact Option.noConfusion hx'
      · rw [if_neg hc] at h
        obtain ⟨hcov, hmem, hmax, hx⟩ := ih none r (by intro x hx; exact Option.noConfusion hx) h
        refine ⟨hcov, ?_, ?_, hx⟩
        · rcases hmem with hm | hm
          · exact Or.inl (List.mem_cons_of_mem _ hm)
          · exact Or.inr hm
        · intro b' hb'' hcov'
          rcases List.mem_cons.mp hb'' with rfl | hmem'
          · exact absurd hcov' hc
          · exact hmax b' hmem' hcov'
    | some bb =>
      simp only [best_block] at h
      by_cases hc : block_covers b t = true
      · rw [if_pos hc] at h
        by_cases hlt : strLt bb.start b.start = true
        · rw [if_pos hlt] at h
          have hb' : ∀ x, some b = some x → block_covers x t = true := by
            intro x hx
            injection hx with hx
            exact hx ▸ hc
          obtain ⟨hcov, hmem, hmax, hx⟩ := ih (some b) r hb' h
          have hbr : strLe b.start r.start = true := hx b rfl
          refine ⟨hcov, ?_, ?_, ?_⟩
          · rcases hmem with hm | hm
            · exact Or.inl (List.mem_cons_of_mem _ hm)
            · injection hm with hm
              exact Or.inl (hm ▸ List.mem_cons_self b rest)
          · intro b' hb'' hcov'
            rcases List.mem_cons.mp hb'' with rfl | hmem'
            · exact hx _ rfl
            · exact hmax b' hmem' hcov'
          · intro x hx'
            injection hx' with hx'
            subst hx'
            rw [strLe_eq_true_iff] at hbr ⊢
            cases hrb : strLt r.start bb.start
            · rfl
            · have := strLt_trans hrb hlt
              rw [this] at hbr
              exact Bool.noConfusion hbr
        · rw [if_neg hlt] at h
          obtain ⟨hcov, hmem, hmax, hx⟩ := ih (some bb) r hbest h
          have hbbr : strLe bb.start r.start = true := hx bb rfl
          refine ⟨hcov, ?_, ?_, hx⟩
          · rcases hmem with hm | hm
            · exact Or.inl (List.mem_cons_of_mem _ hm)
            · exact Or.inr hm
          · intro b' hb'' hcov'
            rcases List.mem_cons.mp hb'' with rfl | hmem'
            · have hnb : strLt bb.start b'.start = false :=
                Bool.eq_false_iff.mpr hlt
              rw [strLe_eq_true_iff] at hbbr ⊢
              exact strLt_notlt_trans hbbr hnb
            · exact hmax b' hmem' hcov'
      · rw [if_neg hc] at h
        obtain ⟨hcov, hmem, hmax, hx⟩ := ih (some bb) r hbest h
        refine ⟨hcov, ?_, ?_, hx⟩
        · rcases hmem with hm | hm
          · exact Or.inl (List.mem_cons_of_mem _ hm)
          · exact Or.inr hm
        · intro b' hb'' hcov'
          rcases List.mem_cons.mp hb'' with rfl | hmem'
          · exact absurd hcov' hc
          · exact hmax b' hmem' hcov'

theorem total_duration_nil : total_duration [] = 0 := rfl

theorem total_duration_cons (e : Entry) (l : List Entry) :
    total_duration (e :: l) = e.duration + total_duration l := by
  simp [total_duration]

theorem prefixSum_zero (l : List Entry) : prefixSum l 0 = 0 := by
  simp [prefixSum, total_duration]

theorem prefixSum_cons_succ (e : Entry) (l : List Entry) (k : Nat) :
    prefixSum (e :: l) (k + 1) = e.duration + prefixSum l k := by
  simp [prefixSum, total_duration, List.take_succ_cons]

theorem epoch_walk_first :
    ∀ (l : List Entry) (acc pos : Int) (e : Entry) (off : Int),
      epoch_walk l acc pos = some (e, off) →
      ∃ i, i < l.length ∧ l[i]? = some e ∧
        pos < acc + prefixSum l (i + 1) ∧
        (∀ j, j < i → acc + prefixSum l (j + 1) ≤ pos) ∧
        off = pos - (acc + prefixSum l i) := by
  intro l
  induction l with
  | nil =>
    intro acc pos e off h
    exact Option.noConfusion h
  | cons x rest ih =>
    intro acc pos e off h
    simp only [epoch_walk] at h
    by_cases hm : pos < acc + x.duration
    · rw [if_pos hm] at h
      injection h with h
      injection h with h1 h2
      refine ⟨0, by simp, by simp [h1], ?_, ?_, ?_⟩
      · rw [prefixSum_cons_succ, prefixSum_zero]
        omega
      · intro j hj
        omega
      · rw [prefixSum_zero]
        omega
    · rw [if_neg hm] at h
      obtain ⟨i, hi, hget, hlt, hle, hoff⟩ := ih (acc + x.duration) pos e off h
      refine ⟨i + 1, by simpa using hi, by simpa using hget, ?_, ?_, ?_⟩
      · rw [prefixSum_cons_succ]
        omega
      · intro j hj
        cases j with
        | zero =>
          rw [prefixSum_cons_succ, prefixSum_zero]
          omega
        | succ j' =>
          have := hle j' (by omega)
          rw [prefixSum_cons_succ]
          omega
      · rw [prefixSum_cons_succ]
        omega

theorem epoch_walk_isSome :
    ∀ (l : List Entry) (acc pos : Int), l ≠ [] →
      pos < acc + total_duration l →
      ∃ e off, epoch_walk l acc pos = some (e, off) ∧ e ∈ l := by
  intro l
  induction l with
  | nil =>
    intro acc pos h _
    exact absurd rfl h
  | cons x rest ih =>
    intro acc pos _ hlt
    simp only [epoch_walk]
    by_cases hm : pos < acc + x.duration
    · rw [if_pos hm]
      exact ⟨x, pos - acc, rfl, List.mem_cons_self x rest⟩
    · rw [if_neg hm]
      cases rest with
      | nil =>
        exfalso
        rw [total_duration_cons, total_duration_nil] at hlt
        omega
      | cons y rest' =>
        rw [total_duration_cons] at hlt
        obtain ⟨e, off, hw, hmem⟩ :=
          ih (acc + x.duration) pos (by simp) (by omega)
        exact ⟨e, off, hw, List.mem_cons_of_mem _ hmem⟩

theorem epoch_walk_finds :
    ∀ (l : List Entry) (acc pos : Int),
      (∀ e ∈ l, 0 ≤ e.duration) → acc ≤ pos →
      pos < acc + total_duration l →
      ∃ e off, epoch_walk l acc pos = some (e, off) ∧ e ∈ l ∧
        0 ≤ off ∧ off < e.duration := by
  intro l
  induction l with
  | nil =>
    intro acc pos _ hle hlt
    rw [total_duration_nil] at hlt
    omega
  | cons x rest ih =>
    intro acc pos hd hle hlt
    simp only [epoch_walk]
    by_cases hm : pos < acc + x.duration
    · rw [if_pos hm]
      exact ⟨x, pos - acc, rfl, List.mem_cons_self x rest, by omega, by omega⟩
    · rw [if_neg hm]
      rw [total_duration_cons] at hlt
      obtain ⟨e, off, hw, hmem, h0, hdur⟩ :=
        ih (acc + x.duration) pos
          (fun e he => hd e (List.mem_cons_of_mem _ he)) (by omega) (by omega)
      exact ⟨e, off, hw, List.mem_cons_of_mem _ hmem, h0, hdur⟩

theorem setA_lookup_self {α : Type} (m : List (String × α)) (k : String)
    (v : α) : (setA m k v).lookup k = some v := by
  induction m with
  | nil => simp [setA, List.lookup]
  | cons p rest ih =>
    obtain ⟨k', v'⟩ := p
    by_cases hk : k' = k
    · subst hk
      simp [setA, List.lookup]
    · have hk2 : (k' == k) = false := beq_eq_false_iff_ne.mpr hk
      have hk3 : (k == k') = false := beq_eq_false_iff_ne.mpr (Ne.symm hk)
      simp [setA, hk2, List.lookup, hk3, ih]

theorem setA_self {α : Type} (m : List (String × α)) (k : String) (v : α)
    (h : m.lookup k = some v) : setA m k v = m := by
  induction m with
  | nil => simp [List.lookup] at h
  | cons p rest ih =>
    obtain ⟨k', v'⟩ := p
    by_cases hk : k = k'
    · subst hk
      simp [List.lookup] at h
      simp [setA, h]
    · have hk2 : (k == k') = false := beq_eq_false_iff_ne.mpr hk
      have hk3 : (k' == k) = false := beq_eq_false_iff_ne.mpr (Ne.symm hk)
      simp [List.lookup, hk2] at h
      simp [setA, hk3, ih h]

theorem lookup_map_self {α : Type} (l : List String) (g : String → α)
    (k : String) (h : k ∈ l) :
    (l.map fun d => (d, g d)).lookup k = some (g k) := by
  induction l with
  | nil => exact absurd h (List.not_mem_nil k)
  | cons d rest ih =>
    rcases List.mem_cons.mp h with rfl | hmem
    · simp [List.lookup]
    · by_cases hd : k = d
      · subst hd
        simp [List.lookup]
      · have : (k == d) = false := beq_eq_false_iff_ne.mpr hd
        simp [List.lookup, this, ih hmem]

theorem effective_eq (config : Config) (state : ScheduleState) (day : String)
    (h : day ∈ DAYS) :
    effective config state day =
      (state.schedule.lookup day).getD
        ((config.default_schedule.lookup day).getD []) := by
  unfold effective get_schedule
  rw [lookup_map_self DAYS _ day h]
  rfl

theorem bucketOf_set_block (config : Config) (state : ScheduleState)
    (day station s e id : String) :
    bucketOf (set_block config state day station s e id) day station =
      List.insertionSort (fun a b => strLe a.start b.start = true)
        (((seedBucket config state day station).filter fun b => b.start != s)
          ++ [⟨s, e, id⟩]) := by
  cases hday : state.schedule.lookup day with
  | some ds =>
    cases hst : ds.lookup station with
    | some blocks =>
      simp [set_block, bucketOf, seedBucket, hday, hst, setA_lookup_self]
    | none =>
      simp [set_block, bucketOf, seedBucket, hday, hst, setA_lookup_self]
  | none =>
    cases hst : ((config.default_schedule.lookup day).getD []).lookup station with
    | some blocks =>
      simp [set_block, bucketOf, seedBucket, hday, hst, setA_lookup_self]
    | none =>
      simp [set_block, bucketOf, seedBucket, hday, hst, setA_lookup_self]

/-- C1: for every station, day and time, the block resolver returns a block
only if it covers the time under half-open matching with the end-of-day
sentinel, and among all covering blocks it returns one with the latest start
(no covering block has a strictly later start); when no block covers the
time it returns none.  In particular a block with start "09:00" and end
"00:00" covers time "23:59". -/
theorem resolve_returns_latest_covering_block :
    (∀ config state day station t r,
      resolve_blocks config state day station t = some r →
        r ∈ effective_blocks config state day station ∧
        block_covers r t = true ∧
        ∀ b ∈ effective_blocks config state day station,
          block_covers b t = true → strLe b.start r.start = true) ∧
    (∀ config state day station t,
      resolve_blocks config state day station t = none →
        ∀ b ∈ effective_blocks config state day station,
          block_covers b t = false) ∧
    block_covers ⟨"09:00", "00:00", "NEWS"⟩ "23:59" = true := by
  refine ⟨?_, ?_, by decide⟩
  · intro config state day station t r h
    simp only [resolve_blocks] at h
    by_cases hb : effective_blocks config state day station = []
    · simp [hb] at h
    · rw [if_neg hb] at h
      obtain ⟨hcov, hmem, hmax, _⟩ :=
        best_block_spec t _ none r (fun x hx => Option.noConfusion hx) h
      rcases hmem with hm | hm
      · exact ⟨hm, hcov, hmax⟩
      · exact Option.noConfusion hm
  · intro config state day station t h
    simp only [resolve_blocks] at h
    by_cases hb : effective_blocks config state day station = []
    · intro b hbmem
      rw [hb] at hbmem
      cases hbmem
    · rw [if_neg hb] at h
      obtain ⟨_, h2⟩ := best_block_eq_none t _ none h
      exact h2

/-- Witness for C1 at a concrete schedule: the default monday NEWS block is
returned at "10:00", covers it, and has maximal start. -/
theorem resolve_returns_latest_covering_block_witness :
    demoBlock ∈ effective_blocks demoConfig demoState "monday" "NEWS" ∧
    block_covers demoBlock "10:00" = true ∧
    ∀ b ∈ effective_blocks demoConfig demoState "monday" "NEWS",
      block_covers b "10:00" = true → strLe b.start demoBlock.start = true :=
  resolve_returns_latest_covering_block.1 demoConfig demoState "monday" "NEWS"
    "10:00" demoBlock (by decide)

/-- C2: the epoch player takes the instant's epoch seconds modulo the total
duration and returns the first entry, in playlist order, whose accumulated
interval strictly contains the position (`position < accumulated + duration`,
so a boundary position belongs to the next entry), with offset
`position - accumulated`; concretely on playlist [(A,600),(B,300)] instant
905 yields A at offset 5 and instant 1500 yields B at offset 0. -/
theorem epoch_player_first_entry :
    (∀ entries instant e off, playAt entries instant = some (e, off) →
      ∃ i, i < entries.length ∧ entries[i]? = some e ∧
        instant % total_duration entries < prefixSum entries (i + 1) ∧
        (∀ j, j < i →
          prefixSum entries (j + 1) ≤ instant % total_duration entries) ∧
        off = instant % total_duration entries - prefixSum entries i) ∧
    playAt scenarioAPlaylist 905 = some (⟨"A", 600⟩, 5) ∧
    playAt scenarioAPlaylist 1500 = some (⟨"B", 300⟩, 0) := by
  refine ⟨?_, by decide, by decide⟩
  intro entries instant e off h
  simp only [playAt] at h
  by_cases hne : entries = []
  · rw [if_pos hne] at h
    exact Option.noConfusion h
  · rw [if_neg hne] at h
    by_cases hz : total_duration entries = 0
    · rw [if_pos hz] at h
      exact Option.noConfusion h
    · rw [if_neg hz] at h
      obtain ⟨i, hi, hget, hlt, hle, hoff⟩ := epoch_walk_first entries 0 _ e off h
      refine ⟨i, hi, hget, by omega, ?_, by omega⟩
      intro j hj
      have := hle j hj
      omega

/-- Witness for C2 at Scenario A: instant 905 on [(A,600),(B,300)] selects
index 0 with offset 5. -/
theorem epoch_player_first_entry_witness :
    ∃ i, i < scenarioAPlaylist.length ∧
      scenarioAPlaylist[i]? = some ⟨"A", 600⟩ ∧
      (905 : Int) % total_duration scenarioAPlaylist <
        prefixSum scenarioAPlaylist (i + 1) ∧
      (∀ j, j < i → prefixSum scenarioAPlaylist (j + 1) ≤
        (905 : Int) % total_duration scenarioAPlaylist) ∧
      (5 : Int) = (905 : Int) % total_duration scenarioAPlaylist -
        prefixSum scenarioAPlaylist i :=
  epoch_player_first_entry.1 scenarioAPlaylist 905 ⟨"A", 600⟩ 5 (by decide)

/-- C9: the epoch player is a pure function of the playlist and the instant —
the embedding of `calculate_epoch_position`'s epoch arithmetic reads no
playback state, so two calls with identical arguments give identical
results. -/
theorem playAt_deterministic :
    ∀ (entries : List Entry) (instant : Int) (r₁ r₂ : Option (Entry × Int)),
      playAt entries instant = r₁ → playAt entries instant = r₂ → r₁ = r₂ := by
  intro entries instant r₁ r₂ h1 h2
  rw [← h1, ← h2]

/-- Witness for C9: both "calls" at Scenario A instant 905 agree on the
evaluated result. -/
theorem playAt_deterministic_witness :
    playAt scenarioAPlaylist 905 = some (⟨"A", 600⟩, 5) :=
  playAt_deterministic scenarioAPlaylist 905 _ (some (⟨"A", 600⟩, 5)) rfl
    (by decide)

/-- C10: on a non-empty playlist of non-negative durations with positive
total, the epoch walk always returns an entry (the post-loop no-result
branch is unreachable) and the offset satisfies
`0 ≤ offset < entry.duration`. -/
theorem epoch_player_total_with_offset_bounds :
    ∀ (entries : List Entry) (instant : Int), entries ≠ [] →
      (∀ e ∈ entries, 0 ≤ e.duration) → 0 < total_duration entries →
      ∃ e off, playAt entries instant = some (e, off) ∧ e ∈ entries ∧
        0 ≤ off ∧ off < e.duration := by
  intro entries instant hne hd hpos
  simp only [playAt]
  rw [if_neg hne, if_neg (by omega : ¬ total_duration entries = 0)]
  have h0 : 0 ≤ instant % total_duration entries :=
    Int.emod_nonneg _ (by omega)
  have hlt : instant % total_duration entries < total_duration entries :=
    Int.emod_lt_of_pos _ hpos
  exact epoch_walk_finds entries 0 (instant % total_duration entries) hd h0
    (by omega)

/-- Witness for C10 at Scenario A, instant 905. -/
theorem epoch_player_total_with_offset_bounds_witness :
    ∃ e off, playAt scenarioAPlaylist 905 = some (e, off) ∧
      e ∈ scenarioAPlaylist ∧ 0 ≤ off ∧ off < e.duration :=
  epoch_player_total_with_offset_bounds scenarioAPlaylist 905 (by decide)
    (by decide) (by decide)

/-- C7: after clearing the override layer, the effective schedule of every
day (hence of every station) is exactly the config default. -/
theorem reset_effective_equals_defaults :
    ∀ (config : Config) (state : ScheduleState) (day : String), day ∈ DAYS →
      effective config (reset_schedule state) day =
        (config.default_schedule.lookup day).getD [] ∧
      ∀ station,
        (effective config (reset_schedule state) day).lookup station =
          ((config.default_schedule.lookup day).getD []).lookup station := by
  intro config state day h
  have he := effective_eq config (reset_schedule state) day h
  have he' : effective config (reset_schedule state) day =
      (config.default_schedule.lookup day).getD [] := he
  exact ⟨he', fun station => by rw [he']⟩

/-- Witness for C7 on the sample config. -/
theorem reset_effective_equals_defaults_witness :
    effective demoConfig (reset_schedule c4State) "monday" =
      (demoConfig.default_schedule.lookup "monday").getD [] ∧
    ∀ station,
      (effective demoConfig (reset_schedule c4State) "monday").lookup station =
        ((demoConfig.default_schedule.lookup "monday").getD []).lookup station :=
  reset_effective_equals_defaults demoConfig c4State "monday" (by decide)

/-- C4 counterexample: with an override day present but empty
(`{"monday": {}}`), the code returns the empty override bucket, not the
day's non-empty default as the claim ("present and non-empty") requires. -/
theorem effective_empty_override_counterexample :
    c4State.schedule.lookup "monday" = some [] ∧
    (demoConfig.default_schedule.lookup "monday").getD [] =
      [("NEWS", [demoBlock])] ∧
    effective demoConfig c4State "monday" = [] ∧
    effective demoConfig c4State "monday" ≠
      (demoConfig.default_schedule.lookup "monday").getD [] := by
  decide

/-- C4 amended: effective(day) is the override bucket when the day is
present in the override layer — even when that bucket is empty — else the
default bucket; when present the replacement is wholesale, so a station not
mentioned in the override bucket gets an empty block list. -/
theorem effective_override_if_present :
    ∀ (config : Config) (state : ScheduleState) (day : String), day ∈ DAYS →
      effective config state day =
        (state.schedule.lookup day).getD
          ((config.default_schedule.lookup day).getD []) ∧
      ∀ ds station, state.schedule.lookup day = some ds →
        ds.lookup station = none →
        ((effective config state day).lookup station).getD [] = [] := by
  intro config state day h
  have he := effective_eq config state day h
  refine ⟨he, ?_⟩
  intro ds station hds hst
  rw [he, hds]
  simp [hst]

/-- Witness for C4 (amended) at the present-but-empty override day. -/
theorem effective_override_if_present_witness :
    effective demoConfig c4State "monday" =
      (c4State.schedule.lookup "monday").getD
        ((demoConfig.default_schedule.lookup "monday").getD []) ∧
    ∀ ds station, c4State.schedule.lookup "monday" = some ds →
      ds.lookup station = none →
      ((effective demoConfig c4State "monday").lookup station).getD [] = [] :=
  effective_override_if_present demoConfig c4State "monday" (by decide)

/-- C6: `load_state` maps a missing state file to the empty override layer,
but an unparseable file makes `json.load` raise `JSONDecodeError` — the
exception propagates, it is not treated as an empty layer as the spec's
error taxonomy states. -/
theorem load_state_missing_ok_unparseable_raises :
    load_state .missing = .ok ⟨[], []⟩ ∧
    load_state .unparseable = .error "JSONDecodeError" :=
  ⟨rfl, rfl⟩

/-- C8: `remove_block` with a start that no block in the `(day, station)`
bucket carries returns the state unchanged (hence the persisted JSON is
byte-for-byte identical). -/
theorem remove_block_absent_start_noop :
    ∀ (state : ScheduleState) (day station start : String),
      (∀ b ∈ bucketOf state day station, ¬ b.start = start) →
      remove_block state day station start = state := by
  intro state day station start h
  cases hday : state.schedule.lookup day with
  | none => simp [remove_block, hday]
  | some ds =>
    cases hst : ds.lookup station with
    | none => simp [remove_block, hday, hst]
    | some blocks =>
      have hb : ∀ b ∈ blocks, (b.start != start) = true := by
        intro b hbmem
        have hmem : b ∈ bucketOf state day station := by
          unfold bucketOf
          rw [hday]
          simpa [hst] using hbmem
        simpa [bne_iff_ne] using h b hmem
      have hfil : blocks.filter (fun b => b.start != start) = blocks :=
        List.filter_eq_self.mpr hb
      simp [remove_block, hday, hst, hfil, setA_self ds station blocks hst,
        setA_self state.schedule day ds hday]

/-- Witness for C8: removing "13:00" from a bucket with only a "09:00"
block leaves the state intact. -/
theorem remove_block_absent_start_noop_witness :
    remove_block ⟨[("monday", [("NEWS", [demoBlock])])], []⟩ "monday" "NEWS"
      "13:00" = ⟨[("monday", [("NEWS", [demoBlock])])], []⟩ :=
  remove_block_absent_start_noop ⟨[("monday", [("NEWS", [demoBlock])])], []⟩
    "monday" "NEWS" "13:00" (by decide)

theorem countP_bucket_set_self (config : Config) (state : ScheduleState)
    (day station s e id : String) :
    (bucketOf (set_block config state day station s e id) day station).countP
      (fun b => b.start == s) = 1 := by
  rw [bucketOf_set_block,
    List.Perm.countP_eq _ (List.perm_insertionSort _ _), List.countP_append]
  have h1 : ((seedBucket config state day station).filter
      fun b => b.start != s).countP (fun b => b.start == s) = 0 := by
    rw [List.countP_eq_zero]
    intro b hbmem
    have h2 := (List.mem_filter.mp hbmem).2
    simp only [bne_iff_ne, ne_eq] at h2
    simp [h2]
  rw [h1]
  simp

theorem mem_bucket_set (config : Config) (state : ScheduleState)
    (day station s e id : String) (b : Block) :
    b ∈ bucketOf (set_block config state day station s e id) day station →
    b.start = s → b = ⟨s, e, id⟩ := by
  rw [bucketOf_set_block]
  intro hbmem hbs
  have hmem' := (List.perm_insertionSort
    (fun a b : Block => strLe a.start b.start = true) _).mem_iff.mp hbmem
  rcases List.mem_append.mp hmem' with hm | hm
  · have h2 := (List.mem_filter.mp hm).2
    rw [hbs] at h2
    simp at h2
  · simpa using hm

theorem countP_bucket_set_other (config : Config) (state : ScheduleState)
    (day station s e id s' : String) (h : s' ≠ s) :
    (bucketOf (set_block config state day station s e id) day station).countP
      (fun b => b.start == s') =
    (seedBucket config state day station).countP (fun b => b.start == s') := by
  rw [bucketOf_set_block,
    List.Perm.countP_eq _ (List.perm_insertionSort _ _), List.countP_append]
  have h1 : ([(⟨s, e, id⟩ : Block)]).countP (fun b => b.start == s') = 0 := by
    rw [List.countP_eq_zero]
    intro b hbmem
    have hb : b = ⟨s, e, id⟩ := by simpa using hbmem
    subst hb
    simp [Ne.symm h]
  rw [h1, Nat.add_zero, List.countP_filter]
  refine List.countP_congr ?_
  intro b hbmem
  by_cases hbs : b.start = s'
  · simp [hbs, bne_iff_ne, h]
  · simp [hbs]

theorem blockLe_trans : ∀ a b c : Block, blockLe a b → blockLe b c →
    blockLe a c := by
  intro a b c hab hbc
  unfold blockLe at *
  rw [strLe_eq_true_iff] at *
  exact strLt_notlt_trans hbc hab

theorem blockLe_total : ∀ a b : Block, blockLe a b ∨ blockLe b a := by
  intro a b
  unfold blockLe
  rw [strLe_eq_true_iff, strLe_eq_true_iff]
  cases hba : strLt b.start a.start
  · exact Or.inl rfl
  · cases hab : strLt a.start b.start
    · exact Or.inr rfl
    · have h := strLt_trans hab hba
      rw [strLt_irrefl] at h
      exact absurd h (by simp)

theorem sorted_bucket_set_block (config : Config) (state : ScheduleState)
    (day station s e id : String) :
    List.Sorted blockLe
      (bucketOf (set_block config state day station s e id) day station) := by
  rw [bucketOf_set_block]
  haveI : IsTrans Block blockLe := ⟨blockLe_trans⟩
  haveI : IsTotal Block blockLe := ⟨blockLe_total⟩
  exact List.sorted_insertionSort blockLe _

/-- C5: `set_block` upserts into the override bucket — it drops any block
with the same start, appends the new one and re-sorts; the bucket it mutates
is seeded from the day's defaults when the day was absent from the override
layer (counts at other starts are preserved from that seed).  Consequently
after two `set_block` calls at the same start exactly one block with that
start remains, and it carries the second call's end and show id. -/
theorem set_block_upsert_unique_start :
    ∀ (config : Config) (state : ScheduleState)
      (day station s e₁ id₁ e₂ id₂ : String),
      (bucketOf (set_block config
          (set_block config state day station s e₁ id₁)
          day station s e₂ id₂) day station).countP
        (fun b => b.start == s) = 1 ∧
      (∀ b ∈ bucketOf (set_block config
          (set_block config state day station s e₁ id₁)
          day station s e₂ id₂) day station,
        b.start = s → b = ⟨s, e₂, id₂⟩) ∧
      (∀ s', s' ≠ s →
        (bucketOf (set_block config state day station s e₁ id₁)
          day station).countP (fun b => b.start == s') =
        (seedBucket config state day station).countP
          (fun b => b.start == s')) ∧
      List.Sorted blockLe
        (bucketOf (set_block config state day station s e₁ id₁)
          day station) := by
  intro config state day station s e₁ id₁ e₂ id₂
  refine ⟨countP_bucket_set_self _ _ _ _ _ _ _, ?_, ?_,
    sorted_bucket_set_block _ _ _ _ _ _ _⟩
  · intro b hbmem hbs
    exact mem_bucket_set _ _ _ _ _ _ _ b hbmem hbs
  · intro s' hs'
    exact countP_bucket_set_other _ _ _ _ _ _ _ _ hs'

/-- Witness for C5 at Scenario C: after setting monday WEATHER 08:00 twice,
the bucket holds exactly one block at start 08:00, and instantiating the
theorem's implications at the MORNING2 block and at start 07:00 discharges
their hypotheses. -/
theorem set_block_upsert_unique_start_witness :
    (bucketOf scenC2 "monday" "WEATHER").countP
      (fun b => b.start == "08:00") = 1 ∧
    (⟨"08:00", "10:00", "MORNING2"⟩ : Block) = ⟨"08:00", "10:00", "MORNING2"⟩ ∧
    (bucketOf scenC1 "monday" "WEATHER").countP
      (fun b => b.start == "07:00") =
      (seedBucket emptyConfig demoState "monday" "WEATHER").countP
        (fun b => b.start == "07:00") := by
  obtain ⟨h1, h2, h3, _⟩ := set_block_upsert_unique_start emptyConfig demoState
    "monday" "WEATHER" "08:00" "09:00" "MORNING" "10:00" "MORNING2"
  exact ⟨h1, h2 ⟨"08:00", "10:00", "MORNING2"⟩ (by decide) (by decide),
    h3 "07:00" (by decide)⟩

/-- C3 counterexample: the station's monday block selects show X with
content path "/shows/X/" and the playlist has an X entry, yet
`calculate_epoch_position` returns the "/shows/Y/b" entry — because the
X subset's total duration is zero, the schedule-aware branch returns
nothing and the code falls back to the full-station playlist. -/
theorem nowPlaying_prefix_restriction_counterexample :
    (∃ e ∈ facadeEntriesZero, startsWithPy e.path "/shows/X/" = true) ∧
    ((resolve_now facadeConfig demoState facadeChannels "monday" "12:00"
      "3").map fun r => (r.showInfo.map (·.path)).getD "") =
        some "/shows/X/" ∧
    calculate_epoch_position facadeConfig demoState facadeChannels
      facadeEntriesZero "monday" "12:00" (some "3") 100 =
      some (.playing ⟨"/shows/Y/b", 300⟩ 100) ∧
    startsWithPy "/shows/Y/b" "/shows/X/" = false := by
  decide

/-- C3 amended: when the resolved block's show has content path p and the
entries of the station playlist whose path starts with p have positive total
duration, every `playing` result of `calculate_epoch_position` is an entry
whose path starts with p. -/
theorem nowPlaying_prefix_restriction_amended :
    ∀ (config : Config) (state : ScheduleState)
      (channels : List (String × String)) (entries : List Entry)
      (day t ch : String) (instant : Int) (r : ResolveResult) (p : String),
      resolve_now config state channels day t ch = some r →
      (r.showInfo.map (·.path)).getD "" = p →
      p ≠ "" →
      0 < total_duration (entries.filter fun en => startsWithPy en.path p) →
      ∀ e off,
        calculate_epoch_position config state channels entries day t
          (some ch) instant = some (.playing e off) →
        startsWithPy e.path p = true := by
  intro config state channels entries day t ch instant r p hres hpath hpne
    hpos e off hcalc
  by_cases hne : entries = []
  · rw [hne] at hpos
    simp [total_duration] at hpos
  · by_cases hsig : r.show_id = "SIGNOFF" ∨ r.show_id = "SIGNON"
    · simp [calculate_epoch_position, hne, hres, hsig] at hcalc
    · have hFne : entries.filter (fun en => startsWithPy en.path p) ≠ [] := by
        intro hnil
        rw [hnil] at hpos
        simp [total_duration] at hpos
      obtain ⟨e₀, off₀, hw, hmem⟩ := epoch_walk_isSome
        (entries.filter fun en => startsWithPy en.path p) 0
        (instant % total_duration
          (entries.filter fun en => startsWithPy en.path p)) hFne
        (by
          have h0 := Int.emod_lt_of_pos instant hpos
          omega)
      have hcalc' : calculate_epoch_position config state channels entries
          day t (some ch) instant = some (.playing e₀ off₀) := by
        simp [calculate_epoch_position, hne, hres, hsig, hpath, hpne, hFne,
          hpos, hw]
      rw [hcalc'] at hcalc
      simp only [Option.some.injEq, EpochResult.playing.injEq] at hcalc
      obtain ⟨he, _⟩ := hcalc
      subst he
      exact (List.mem_filter.mp hmem).2

/-- Witness for C3 (amended) on the positive-duration playlist: at instant
905 the facade returns the "/shows/X/a" entry, which carries the prefix. -/
theorem nowPlaying_prefix_restriction_amended_witness :
    startsWithPy "/shows/X/a" "/shows/X/" = true :=
  nowPlaying_prefix_restriction_amended facadeConfig demoState facadeChannels
    facadeEntries "monday" "12:00" "3" 905
    ⟨"X", some ⟨"X", "Show X", "/shows/X/"⟩, ⟨"00:00", "", "X"⟩⟩ "/shows/X/"
    (by decide) (by decide) (by decide) (by decide)
    ⟨"/shows/X/a", 600⟩ 305 (by decide)
